import Mathlib

/-!
# Verification of the tilecoding crate core (src/lib.rs)

Shallow embedding of the tile-coding library: the coordinate generators
`calculate_coords` / `calculate_coords_wrap`, the bounded index-hash-table
`IHT` with its `get_index` / `get_index_read_only` operations and the
`tiles` family of methods, and the stateless `tiles` / `tiles_wrap`
functions.

Modelling conventions:
* Rust `isize` values are modelled as `Int`; Rust `/` and `%` on `isize`
  truncate toward zero, so they are modelled by `Int.tdiv` and `Int.tmod`.
  Rust `/` and `%` panic on divisor `0`; every theorem below that concerns
  these operators assumes `num_tilings ≥ 1` (and positive wrap widths),
  which is the documented domain, so the total Lean functions agree with
  the Rust partial ones everywhere a theorem speaks.
* Rust `usize` values are modelled as `Nat`.  The one `usize` remainder
  whose divisor can legitimately be `0` under the spec's claims (`% size`
  on the hash paths) is modelled by `safeMod`, which returns `none`
  exactly where Rust panics.
* `std::collections::HashMap` is modelled as an insertion-ordered
  association list with `lookupAssoc`; the entry API of `get_index` is
  translated arm by arm.
* `base_hash` uses Rust's `DefaultHasher`, i.e. SipHash-1-3 with both keys
  zero.  It is modelled bit-exactly below (validated against the index
  values asserted by the crate's own doc-tests).  Hashing a `Vec<isize>`
  writes the length as a 64-bit word followed by each element as a 64-bit
  two's-complement word, all writes being whole little-endian words, so
  the byte stream is modelled word by word.
* The `f64` quantizer `calculate_q_floats` is not modelled (floating
  point); all functions are entered at the vector of quantized integer
  values `q_floats`, which is where every claim under verification lives.
-/

/-! ## SipHash-1-3 (Rust std `DefaultHasher` with zero keys) -/

/-- One 64-bit lane of the SipHash state. -/
structure SipState where
  v0 : Nat
  v1 : Nat
  v2 : Nat
  v3 : Nat

/-- Rotate a 64-bit word left by `r` bits (`0 < r < 64`). -/
def rotl64 (x r : Nat) : Nat :=
  ((x <<< r) ||| (x >>> (64 - r))) % 2 ^ 64

/-- The SipHash mixing round. -/
def sipRound (s : SipState) : SipState :=
  let a0 := (s.v0 + s.v1) % 2 ^ 64
  let b1 := rotl64 s.v1 13
  let c1 := b1 ^^^ a0
  let d0 := rotl64 a0 32
  let a2 := (s.v2 + s.v3) % 2 ^ 64
  let b3 := rotl64 s.v3 16
  let c3 := b3 ^^^ a2
  let e0 := (d0 + c3) % 2 ^ 64
  let d3 := rotl64 c3 21
  let e3 := d3 ^^^ e0
  let d2 := (a2 + c1) % 2 ^ 64
  let d1 := rotl64 c1 17
  let e1 := d1 ^^^ d2
  let e2 := rotl64 d2 32
  ⟨e0, e1, e2, e3⟩

/-- Absorb one 64-bit message word (one compression round for SipHash-1-3). -/
def sipCompress (s : SipState) (m : Nat) : SipState :=
  let s1 : SipState := ⟨s.v0, s.v1, s.v2, s.v3 ^^^ m⟩
  let s2 := sipRound s1
  ⟨s2.v0 ^^^ m, s2.v1, s2.v2, s2.v3⟩

/-- Initial SipHash state for keys `(0, 0)`, as used by `DefaultHasher::new`. -/
def sipInit : SipState :=
  ⟨0x736f6d6570736575, 0x646f72616e646f6d, 0x6c7967656e657261, 0x7465646279746573⟩

/-- An `isize` viewed as a 64-bit two's-complement word. -/
def toU64 (x : Int) : Nat := (Int.emod x (2 ^ 64)).toNat

/-- Model of the crate's `base_hash` applied to a `Vec<isize>`:
`DefaultHasher` (SipHash-1-3, zero keys) over the byte stream consisting of
the vector length followed by the elements, each as a little-endian 64-bit
word; `finish()` is the final block (total byte count in the top byte)
followed by the finalization rounds. -/
def base_hash (obj : List Int) : Nat :=
  let ws := (obj.length % 2 ^ 64) :: obj.map toU64
  let s := ws.foldl sipCompress sipInit
  let b := ((8 * ws.length) % 256) <<< 56
  let s1 := sipCompress s b
  let s2 : SipState := ⟨s1.v0, s1.v1, s1.v2 ^^^ 0xff, s1.v3⟩
  let s3 := sipRound (sipRound (sipRound s2))
  s3.v0 ^^^ s3.v1 ^^^ s3.v2 ^^^ s3.v3

/-! ## Coordinate generators -/

/-- The body of the `for q in q_floats` loop of `calculate_coords`: the
running displacement starts at `b` and grows by `step` (`2 * tiling`) per
dimension; each element is the truncating division `(q + b) / num_tilings`. -/
def coordsLoop (num_tilings b step : Int) : List Int → List Int
  | [] => []
  | q :: rest => Int.tdiv (q + b) num_tilings :: coordsLoop num_tilings (b + step) step rest

/-- Model of `calculate_coords`: the tiling index, then one truncated
quotient per quantized value, then the optional discrete ints verbatim. -/
def calculate_coords (tiling num_tilings : Nat) (q_floats : List Int)
    (ints : Option (List Int)) : List Int :=
  (tiling : Int) ::
    coordsLoop (num_tilings : Int) (tiling : Int) (2 * (tiling : Int)) q_floats
    ++ ints.getD []

/-- The body of the zipped loop of `calculate_coords_wrap`: the displacement
is reduced `b % num_tilings` before being added, and a supplied width `w`
reduces the element by the Rust remainder `c % w`. -/
def coordsWrapLoop (num_tilings b step : Int) : List (Int × Option Int) → List Int
  | [] => []
  | (q, width) :: rest =>
    (match width with
     | some w => Int.tmod (Int.tdiv (q + Int.tmod b num_tilings) num_tilings) w
     | none => Int.tdiv (q + Int.tmod b num_tilings) num_tilings) ::
      coordsWrapLoop num_tilings (b + step) step rest

/-- Model of `calculate_coords_wrap`: like `calculate_coords` but the
quantized values are zipped with the wrap widths (the shorter list wins)
and the displacement is reduced modulo `num_tilings`. -/
def calculate_coords_wrap (tiling num_tilings : Nat) (q_floats : List Int)
    (wrap_widths : List (Option Int)) (ints : Option (List Int)) : List Int :=
  (tiling : Int) ::
    coordsWrapLoop (num_tilings : Int) (tiling : Int) (2 * (tiling : Int))
      (q_floats.zip wrap_widths)
    ++ ints.getD []

/-! ## The bounded index-hash-table `IHT` -/

/-- Rust `a % b` on `usize`: defined when `b ≠ 0`, a panic when `b = 0`. -/
def safeMod (a b : Nat) : Option Nat := if b = 0 then none else some (a % b)

/-- The index-hash-table: fixed `size`, overflow counter, and the
`HashMap<Vec<isize>, usize>` modelled as an insertion-ordered association
list. -/
structure IHT where
  size : Nat
  overfull_count : Nat
  dict : List (List Int × Nat)

/-- Model of `IHT::new`. -/
def IHT.new (size : Nat) : IHT := ⟨size, 0, []⟩

/-- Lookup in the association list modelling the `HashMap`. -/
def lookupAssoc : List (List Int × Nat) → List Int → Option Nat
  | [], _ => none
  | (k, v) :: rest, q => if k = q then some v else lookupAssoc rest q

/-- Model of `IHT::get_index`: return the stored index when present;
otherwise insert with the next dense index when below capacity, or (when
full) bump `overfull_count` and fall back to `base_hash % size` — which is
Rust's panicking remainder, hence `safeMod`. -/
def IHT.get_index (iht : IHT) (obj : List Int) : Option (Nat × IHT) :=
  let count := iht.dict.length
  match lookupAssoc iht.dict obj with
  | some i => some (i, iht)
  | none =>
    if iht.size ≤ count then
      match safeMod (base_hash obj) iht.size with
      | none => none
      | some h => some (h, ⟨iht.size, iht.overfull_count + 1, iht.dict⟩)
    else
      some (count, ⟨iht.size, iht.overfull_count, iht.dict ++ [(obj, count)]⟩)

/-- Model of `IHT::get_index_read_only`: the `&mut self` receiver is
threaded, and both arms of the entry match return it untouched (the
`Vacant` arm of the Rust code does not insert). -/
def IHT.get_index_read_only (iht : IHT) (obj : List Int) : Option Nat × IHT :=
  match lookupAssoc iht.dict obj with
  | some i => (some i, iht)
  | none => (none, iht)

/-- Model of `IHT::full`. -/
def IHT.full (iht : IHT) : Bool := decide (iht.size ≤ iht.dict.length)

/-- Model of `IHT::count`. -/
def IHT.count (iht : IHT) : Nat := iht.dict.length

/-- The `for tiling in 0..num_tilings` loop shared by `IHT::tiles` and
`IHT::tiles_wrap`: feed a list of coordinate vectors through `get_index`,
threading the table. -/
def runQueries : IHT → List (List Int) → Option (List Nat × IHT)
  | iht, [] => some ([], iht)
  | iht, q :: qs =>
    match iht.get_index q with
    | none => none
    | some (i, iht') =>
      match runQueries iht' qs with
      | none => none
      | some (out, iht'') => some (i :: out, iht'')

/-- Model of `IHT::tiles`, entered at the quantized values. -/
def IHT.tiles (iht : IHT) (num_tilings : Nat) (q_floats : List Int)
    (ints : Option (List Int)) : Option (List Nat × IHT) :=
  runQueries iht
    ((List.range num_tilings).map fun tiling => calculate_coords tiling num_tilings q_floats ints)

/-- Model of `IHT::tiles_wrap`, entered at the quantized values. -/
def IHT.tiles_wrap (iht : IHT) (num_tilings : Nat) (q_floats : List Int)
    (wrap_widths : List (Option Int)) (ints : Option (List Int)) : Option (List Nat × IHT) :=
  runQueries iht
    ((List.range num_tilings).map fun tiling =>
      calculate_coords_wrap tiling num_tilings q_floats wrap_widths ints)

/-- The loop shared by the two read-only `tiles` variants. -/
def roLoop : IHT → List (List Int) → List (Option Nat) × IHT
  | iht, [] => ([], iht)
  | iht, c :: cs =>
    let p := iht.get_index_read_only c
    let r := roLoop p.2 cs
    (p.1 :: r.1, r.2)

/-- Model of `IHT::tiles_read_only`, entered at the quantized values. -/
def IHT.tiles_read_only (iht : IHT) (num_tilings : Nat) (q_floats : List Int)
    (ints : Option (List Int)) : List (Option Nat) × IHT :=
  roLoop iht
    ((List.range num_tilings).map fun tiling => calculate_coords tiling num_tilings q_floats ints)

/-- Model of `IHT::tiles_wrap_read_only`, entered at the quantized values. -/
def IHT.tiles_wrap_read_only (iht : IHT) (num_tilings : Nat) (q_floats : List Int)
    (wrap_widths : List (Option Int)) (ints : Option (List Int)) : List (Option Nat) × IHT :=
  roLoop iht
    ((List.range num_tilings).map fun tiling =>
      calculate_coords_wrap tiling num_tilings q_floats wrap_widths ints)

/-! ## The stateless (unbounded) functions -/

/-- The loop of the free `tiles` / `tiles_wrap` functions: hash each
coordinate vector and reduce by the (panicking when `size = 0`) remainder. -/
def tilesHashLoop (size : Nat) : List (List Int) → Option (List Nat)
  | [] => some []
  | c :: cs =>
    match safeMod (base_hash c) size with
    | none => none
    | some h =>
      match tilesHashLoop size cs with
      | none => none
      | some rest => some (h :: rest)

/-- Model of the free function `tiles`, entered at the quantized values. -/
def tiles (size num_tilings : Nat) (q_floats : List Int)
    (ints : Option (List Int)) : Option (List Nat) :=
  tilesHashLoop size
    ((List.range num_tilings).map fun tiling => calculate_coords tiling num_tilings q_floats ints)

/-- Model of the free function `tiles_wrap`, entered at the quantized values. -/
def tiles_wrap (size num_tilings : Nat) (q_floats : List Int)
    (wrap_widths : List (Option Int)) (ints : Option (List Int)) : Option (List Nat) :=
  tilesHashLoop size
    ((List.range num_tilings).map fun tiling =>
      calculate_coords_wrap tiling num_tilings q_floats wrap_widths ints)

/-! ## Specification-level vocabulary used by the claims -/

/-- The association list assigning to the keys `ks` the consecutive
indices `i, i+1, ...`. -/
def assocOf : List (List Int) → Nat → List (List Int × Nat)
  | [], _ => []
  | k :: ks, i => (k, i) :: assocOf ks (i + 1)

/-- How the set of stored keys evolves over a query sequence: an unseen
key is appended while there is room, and ignored once the table is full. -/
def extendKeys (cap : Nat) : List (List Int) → List (List Int) → List (List Int)
  | ks, [] => ks
  | ks, q :: qs => extendKeys cap (if q ∈ ks then ks else if ks.length < cap then ks ++ [q] else ks) qs

/-- Accumulator form of `firstSeen`. -/
def firstSeenAux : List (List Int) → List (List Int) → List (List Int)
  | acc, [] => acc
  | acc, q :: qs => firstSeenAux (if q ∈ acc then acc else acc ++ [q]) qs

/-- The distinct coordinate vectors of a query sequence in first-seen order. -/
def firstSeen (qs : List (List Int)) : List (List Int) := firstSeenAux [] qs

/-- Well-formedness of a table state: every stored index is below `size`.
It holds for a fresh table and is preserved by `get_index`. -/
def WF (iht : IHT) : Prop := ∀ p ∈ iht.dict, p.2 < iht.size

/-! ## Element-level characterization of the coordinate loops -/

theorem getElem?_zip_of {α β : Type _} {l₁ : List α} {l₂ : List β} {i : Nat} {a : α} {b : β}
    (h₁ : l₁[i]? = some a) (h₂ : l₂[i]? = some b) : (l₁.zip l₂)[i]? = some (a, b) := by
  induction l₁ generalizing l₂ i with
  | nil => simp at h₁
  | cons x xs ih =>
    cases l₂ with
    | nil => simp at h₂
    | cons y ys =>
      cases i with
      | zero =>
        simp only [List.getElem?_cons_zero, Option.some.injEq] at h₁ h₂
        simp [List.zip, h₁, h₂]
      | succ m =>
        simpa using ih (by simpa using h₁) (by simpa using h₂)

theorem coordsLoop_length (n step : Int) :
    ∀ (qs : List Int) (b : Int), (coordsLoop n b step qs).length = qs.length := by
  intro qs
  induction qs with
  | nil => intro b; rfl
  | cons q rest ih => intro b; simp [coordsLoop, ih]

/-- The element pushed by one iteration of the `calculate_coords_wrap` loop,
as a function of the displacement `b`, the quantized value `q` and the
wrap width. -/
def wrapElem (num_tilings b q : Int) : Option Int → Int
  | some w => Int.tmod (Int.tdiv (q + Int.tmod b num_tilings) num_tilings) w
  | none => Int.tdiv (q + Int.tmod b num_tilings) num_tilings

theorem wrapElem_some (n b q w : Int) :
    wrapElem n b q (some w) = Int.tmod (Int.tdiv (q + Int.tmod b n) n) w := rfl

theorem wrapElem_none (n b q : Int) :
    wrapElem n b q none = Int.tdiv (q + Int.tmod b n) n := rfl

theorem coordsWrapLoop_cons (n b step : Int) (q : Int) (width : Option Int)
    (rest : List (Int × Option Int)) :
    coordsWrapLoop n b step ((q, width) :: rest) =
      wrapElem n b q width :: coordsWrapLoop n (b + step) step rest := by
  cases width <;> rfl

theorem coordsWrapLoop_length (n step : Int) :
    ∀ (ps : List (Int × Option Int)) (b : Int), (coordsWrapLoop n b step ps).length = ps.length := by
  intro ps
  induction ps with
  | nil => intro b; rfl
  | cons p rest ih =>
    intro b
    cases p with
    | mk q width => rw [coordsWrapLoop_cons, List.length_cons, List.length_cons, ih]

theorem coordsLoop_getElem? (n step : Int) :
    ∀ (qs : List Int) (b : Int) (i : Nat),
      (coordsLoop n b step qs)[i]? = qs[i]?.map fun q => Int.tdiv (q + (b + step * i)) n := by
  intro qs
  induction qs with
  | nil => intro b i; simp [coordsLoop]
  | cons q rest ih =>
    intro b i
    cases i with
    | zero => simp [coordsLoop]
    | succ m =>
      rw [coordsLoop, List.getElem?_cons_succ, List.getElem?_cons_succ, ih (b + step) m]
      have harith : b + step + step * (m : Int) = b + step * ((m : Nat) + 1 : Nat) := by
        push_cast
        ring
      rw [harith]

theorem coordsWrapLoop_getElem? (n step : Int) :
    ∀ (ps : List (Int × Option Int)) (b : Int) (i : Nat),
      (coordsWrapLoop n b step ps)[i]? =
        ps[i]?.map fun p => wrapElem n (b + step * i) p.1 p.2 := by
  intro ps
  induction ps with
  | nil => intro b i; simp [coordsWrapLoop]
  | cons p rest ih =>
    intro b i
    cases p with
    | mk q width =>
      cases i with
      | zero => simp [coordsWrapLoop_cons]
      | succ m =>
        rw [coordsWrapLoop_cons, List.getElem?_cons_succ, List.getElem?_cons_succ,
          ih (b + step) m]
        have harith : b + step + step * (m : Int) = b + step * ((m + 1 : Nat) : Int) := by
          push_cast
          ring
        rw [harith]

theorem calculate_coords_getElem? {q : List Int} {i : Nat} {qi : Int}
    (t n : Nat) (ints : Option (List Int)) (hq : q[i]? = some qi) :
    (calculate_coords t n q ints)[i + 1]? =
      some (Int.tdiv (qi + ((t : Int) + 2 * t * i)) n) := by
  have hi : i < q.length := by
    rcases List.getElem?_eq_some.mp hq with ⟨h, _⟩
    exact h
  rw [calculate_coords, List.cons_append, List.getElem?_cons_succ,
    List.getElem?_append_left (by rw [coordsLoop_length]; exact hi),
    coordsLoop_getElem?, hq]
  rfl

theorem calculate_coords_wrap_getElem? {q : List Int} {ww : List (Option Int)}
    {i : Nat} {qi : Int} {wi : Option Int}
    (t n : Nat) (ints : Option (List Int)) (hq : q[i]? = some qi) (hw : ww[i]? = some wi) :
    (calculate_coords_wrap t n q ww ints)[i + 1]? =
      some (wrapElem n ((t : Int) + 2 * t * i) qi wi) := by
  have hzip : (q.zip ww)[i]? = some (qi, wi) := getElem?_zip_of hq hw
  have hi : i < (q.zip ww).length := by
    rcases List.getElem?_eq_some.mp hzip with ⟨h, _⟩
    exact h
  rw [calculate_coords_wrap, List.cons_append, List.getElem?_cons_succ,
    List.getElem?_append_left (by rw [coordsWrapLoop_length]; exact hi),
    coordsWrapLoop_getElem?, hzip]
  rfl

/-! ## Association-list lemmas -/

theorem lookupAssoc_eq_some_mem : ∀ {d : List (List Int × Nat)} {q : List Int} {i : Nat},
    lookupAssoc d q = some i → (q, i) ∈ d := by
  intro d
  induction d with
  | nil => intro q i h; simp [lookupAssoc] at h
  | cons p rest ih =>
    intro q i h
    cases p with
    | mk k v =>
      rw [lookupAssoc] at h
      by_cases hk : k = q
      · rw [if_pos hk] at h
        cases h
        subst hk
        exact List.mem_cons_self _ _
      · rw [if_neg hk] at h
        exact List.mem_cons_of_mem _ (ih h)

theorem lookupAssoc_eq_none_iff : ∀ {d : List (List Int × Nat)} {q : List Int},
    lookupAssoc d q = none ↔ ∀ i, (q, i) ∉ d := by
  intro d
  induction d with
  | nil => intro q; simp [lookupAssoc]
  | cons p rest ih =>
    intro q
    cases p with
    | mk k v =>
      rw [lookupAssoc]
      by_cases hk : k = q
      · subst hk
        rw [if_pos rfl]
        constructor
        · intro h
          exact Option.noConfusion h
        · intro h
          exact absurd (List.mem_cons_self (k, v) rest) (h v)
      · rw [if_neg hk]
        rw [ih]
        constructor
        · intro h i hmem
          rcases List.mem_cons.mp hmem with h1 | h2
          · exact hk (by cases h1; rfl)
          · exact h i h2
        · intro h i hmem
          exact h i (List.mem_cons_of_mem _ hmem)

theorem lookupAssoc_of_mem_nodup : ∀ {d : List (List Int × Nat)} {q : List Int} {i : Nat},
    (d.map Prod.fst).Nodup → (q, i) ∈ d → lookupAssoc d q = some i := by
  intro d
  induction d with
  | nil => intro q i _ h; simp at h
  | cons p rest ih =>
    intro q i hnd hmem
    cases p with
    | mk k v =>
      rw [List.map_cons, List.nodup_cons] at hnd
      rw [lookupAssoc]
      rcases List.mem_cons.mp hmem with h1 | h2
      · cases h1
        rw [if_pos rfl]
      · by_cases hk : k = q
        · subst hk
          exact absurd (List.mem_map_of_mem Prod.fst h2) hnd.1
        · rw [if_neg hk]
          exact ih hnd.2 h2

/-! ## Arithmetic facts about the Rust (truncating) remainder -/

theorem tmod_neg_left (a b : Int) : Int.tmod (-a) b = -Int.tmod a b := by
  rw [Int.tmod_def, Int.tmod_def, Int.neg_tdiv]
  ring

theorem tmod_bounds_of_neg (c w : Int) (hc : c < 0) (hw : 0 < w) :
    -w < Int.tmod c w ∧ Int.tmod c w ≤ 0 := by
  have hrw := tmod_neg_left (-c) w
  rw [Int.neg_neg] at hrw
  have h0 : 0 ≤ Int.tmod (-c) w := Int.tmod_nonneg w (by omega)
  have h1 : Int.tmod (-c) w < w := Int.tmod_lt_of_pos _ hw
  omega

/-- Adding one full period `w * n` to a non-negative quantized value does not
change the wrapped element: underneath, `tdiv` and `tmod` agree with the
mathematical (Euclidean) operations on non-negative arguments. -/
theorem wrap_period (n w qi b : Int) (hn : 0 < n) (hw : 0 < w) (hqi : 0 ≤ qi) (hb : 0 ≤ b) :
    Int.tmod (Int.tdiv (qi + w * n + Int.tmod b n) n) w =
      Int.tmod (Int.tdiv (qi + Int.tmod b n) n) w := by
  have hr0 : 0 ≤ Int.tmod b n := Int.tmod_nonneg n hb
  have hwn : 0 ≤ w * n := le_of_lt (mul_pos hw hn)
  have h1 : 0 ≤ qi + Int.tmod b n := by omega
  have h2 : 0 ≤ qi + w * n + Int.tmod b n := by omega
  rw [Int.tdiv_eq_ediv h2 (le_of_lt hn), Int.tdiv_eq_ediv h1 (le_of_lt hn),
    show qi + w * n + Int.tmod b n = qi + Int.tmod b n + w * n by ring,
    Int.add_mul_ediv_right _ _ (ne_of_gt hn)]
  have hq0 : 0 ≤ (qi + Int.tmod b n) / n := Int.ediv_nonneg h1 (le_of_lt hn)
  rw [Int.tmod_eq_emod (by omega) (le_of_lt hw), Int.tmod_eq_emod hq0 (le_of_lt hw),
    show (qi + Int.tmod b n) / n + w = (qi + Int.tmod b n) / n + w * 1 by ring,
    Int.add_mul_emod_self_left]

/-! ## Claim C1 -/

/-- C1 counterexample: the claim asserts that the coordinate element is the
floor `floor((q_i + b) / num_tilings)` (rounding toward negative infinity),
and in particular that `q_i + b = -1` with `num_tilings = 2` yields `-1`.
At `tiling = 1`, `num_tilings = 2`, `q = [-2]` the displacement is `b = 1`,
so `q_i + b = -1`; the code emits `0` (Rust `isize` division truncates
toward zero), while the floor — `Int.fdiv (-2 + 1) 2` — is `-1`. -/
theorem C1_counterexample :
    calculate_coords 1 2 [-2] none = [1, 0] ∧ Int.fdiv (-2 + 1) 2 = -1 := by
  constructor
  · decide
  · decide

/-- C1 (amended): each continuous coordinate element of `calculate_coords`
is the TRUNCATING division `(q_i + b) / num_tilings` (toward zero) with
running displacement `b = t + 2*t*i`; the wrap variant uses the reduced
displacement `b % num_tilings` in its place for an unwrapped dimension. -/
theorem C1_trunc_coords (t n : Nat) (q : List Int) (ww : List (Option Int))
    (ints : Option (List Int)) (i : Nat) (qi : Int)
    (hn : 1 ≤ n) (hq : q[i]? = some qi) :
    (calculate_coords t n q ints)[i + 1]? =
      some (Int.tdiv (qi + ((t : Int) + 2 * t * i)) n)
    ∧ (ww[i]? = some none →
        (calculate_coords_wrap t n q ww ints)[i + 1]? =
          some (Int.tdiv (qi + Int.tmod ((t : Int) + 2 * t * i) n) n)) := by
  refine ⟨calculate_coords_getElem? t n ints hq, fun hw => ?_⟩
  rw [calculate_coords_wrap_getElem? t n ints hq hw]
  rfl

theorem C1_trunc_coords_witness :
    (calculate_coords 1 2 [-2] none)[0 + 1]? = some 0
    ∧ (calculate_coords_wrap 1 2 [-2] [none] none)[0 + 1]? = some 0 := by
  have h := C1_trunc_coords 1 2 [-2] [none] none 0 (-2) (by decide)
    (show ([-2] : List Int)[0]? = some (-2) by rfl)
  constructor
  · rw [h.1]
    decide
  · rw [h.2 (by rfl)]
    decide

/-! ## Claim C2 -/

/-- C2 counterexample: the claim asserts that a wrapped coordinate element
is always a non-negative representative in `[0, w)`.  At `tiling = 0`,
`num_tilings = 1`, `q = [-5]`, wrap width `10`, the intermediate value is
`c = -5` and the code emits `c % 10 = -5` (Rust remainder keeps the sign of
the dividend), which is negative — not in `[0, 10)`. -/
theorem C2_counterexample :
    calculate_coords_wrap 0 1 [-5] [some 10] none = [0, -5] ∧ ¬(0 ≤ (-5 : Int)) := by
  constructor
  · decide
  · decide

/-- C2 (amended): for a supplied positive wrap width `w`, the emitted
element is the Rust remainder `c % w` (`Int.tmod`), which lies in `[0, w)`
when the intermediate value `c` is non-negative but in `(-w, 0]` when `c`
is negative. -/
theorem C2_wrap_tmod (t n : Nat) (q : List Int) (ww : List (Option Int))
    (ints : Option (List Int)) (i : Nat) (qi w c : Int)
    (hn : 1 ≤ n) (hw0 : 0 < w)
    (hq : q[i]? = some qi) (hw : ww[i]? = some (some w))
    (hc : c = Int.tdiv (qi + Int.tmod ((t : Int) + 2 * t * i) n) n) :
    (calculate_coords_wrap t n q ww ints)[i + 1]? = some (Int.tmod c w)
    ∧ (0 ≤ c → 0 ≤ Int.tmod c w ∧ Int.tmod c w < w)
    ∧ (c < 0 → -w < Int.tmod c w ∧ Int.tmod c w ≤ 0) := by
  subst hc
  refine ⟨?_, fun h0 => ⟨Int.tmod_nonneg _ h0, Int.tmod_lt_of_pos _ hw0⟩,
    fun hneg => tmod_bounds_of_neg _ _ hneg hw0⟩
  rw [calculate_coords_wrap_getElem? t n ints hq hw]
  rfl

theorem C2_wrap_tmod_witness :
    (calculate_coords_wrap 0 1 [-5] [some 10] none)[0 + 1]? = some (Int.tmod (-5) 10)
    ∧ (-10 : Int) < Int.tmod (-5) 10 ∧ Int.tmod (-5) 10 ≤ 0 := by
  have h := C2_wrap_tmod 0 1 [-5] [some 10] none 0 (-5) 10 (-5) (by decide) (by decide)
    (show ([-5] : List Int)[0]? = some (-5) by rfl)
    (show ([some 10] : List (Option Int))[0]? = some (some 10) by rfl)
    (by decide)
  exact ⟨h.1, h.2.2 (by decide)⟩

/-! ## Claim C3 -/

/-- C3 counterexample: the claim asserts that a `None` wrap width makes the
wrap variant agree with the non-wrap generator on the same inputs for every
tiling.  At `tiling = 1`, `num_tilings = 2`, two dimensions both `None`,
the second dimension has displacement `b = 3`; the non-wrap path computes
`(0 + 3) / 2 = 1` while the wrap path first reduces `b % 2 = 1` and
computes `(0 + 1) / 2 = 0`. -/
theorem C3_counterexample :
    calculate_coords_wrap 1 2 [0, 0] [none, none] none = [1, 0, 0]
    ∧ calculate_coords 1 2 [0, 0] none = [1, 0, 1] := by
  constructor
  · decide
  · decide

/-- C3 (amended): for a dimension with wrap width `None`, the wrap variant
emits `(q_i + (b % num_tilings)) / num_tilings`, which agrees with the
non-wrap element exactly when reducing the running displacement changes
nothing — in particular whenever `b = t + 2*t*i < num_tilings` (and so
always for tiling `0`); in general the two generators differ. -/
theorem C3_none_width (t n : Nat) (q : List Int) (ww : List (Option Int))
    (ints : Option (List Int)) (i : Nat) (qi : Int)
    (hn : 1 ≤ n) (hq : q[i]? = some qi) (hw : ww[i]? = some none)
    (hb : t + 2 * t * i < n) :
    (calculate_coords_wrap t n q ww ints)[i + 1]? = (calculate_coords t n q ints)[i + 1]? := by
  rw [calculate_coords_getElem? t n ints hq, calculate_coords_wrap_getElem? t n ints hq hw]
  have hbn : Int.tmod ((t : Int) + 2 * t * i) n = (t : Int) + 2 * t * i := by
    apply Int.tmod_eq_of_lt
    · positivity
    · exact_mod_cast hb
  simp only [wrapElem]
  rw [hbn]

theorem C3_none_width_witness :
    (calculate_coords_wrap 1 4 [7] [none] none)[0 + 1]? =
      (calculate_coords 1 4 [7] none)[0 + 1]? :=
  C3_none_width 1 4 [7] [none] none 0 7 (by decide)
    (show ([7] : List Int)[0]? = some 7 by rfl)
    (show ([none] : List (Option Int))[0]? = some none by rfl)
    (by decide)

/-! ## Claim C9 -/

/-- C9 counterexample: the claim asserts that `v` and `v + w` produce the
same wrapped coordinate element in every tiling.  Take `num_tilings = 2`,
wrap width `5`, and `v = -0.5`, whose quantized value is `q = -1`; then
`v + 5` quantizes to `q + 5*2 = 9`.  At tiling `0` the code emits `0` for
`q = -1` (`tdiv (-1) 2 = 0`, `0 % 5 = 0`) but `4` for `q = 9`
(`tdiv 9 2 = 4`, `4 % 5 = 4`): the coordinate vectors differ. -/
theorem C9_counterexample :
    calculate_coords_wrap 0 2 [-1] [some 5] none = [0, 0]
    ∧ calculate_coords_wrap 0 2 [-1 + 5 * 2] [some 5] none = [0, 4] := by
  constructor
  · decide
  · decide

/-- C9 (amended): for a wrapped dimension with positive width `w`, a
NON-NEGATIVE quantized value `q_i` and its translate `q_i + w*num_tilings`
(the quantization of `v` and `v + w`) produce the same coordinate element
in every tiling, whatever the other dimensions and discrete ints are; for
negative quantized values the elements can differ (see the
counterexample), because truncating division and remainder are not
translation-invariant below zero. -/
theorem C9_wrap_equiv (t n : Nat) (q q' : List Int) (ww : List (Option Int))
    (ints ints' : Option (List Int)) (i : Nat) (qi w : Int)
    (hn : 1 ≤ n) (hw0 : 0 < w) (hqi : 0 ≤ qi)
    (hq : q[i]? = some qi) (hq' : q'[i]? = some (qi + w * n))
    (hw : ww[i]? = some (some w)) :
    (calculate_coords_wrap t n q' ww ints')[i + 1]? =
      (calculate_coords_wrap t n q ww ints)[i + 1]? := by
  rw [calculate_coords_wrap_getElem? t n ints hq hw,
    calculate_coords_wrap_getElem? t n ints' hq' hw, wrapElem_some, wrapElem_some]
  have hn' : (0 : Int) < n := by exact_mod_cast hn
  have hb : (0 : Int) ≤ (t : Int) + 2 * t * i := by positivity
  rw [wrap_period n w qi ((t : Int) + 2 * t * i) hn' hw0 hqi hb]

theorem C9_wrap_equiv_witness :
    (calculate_coords_wrap 0 2 [10] [some 5] none)[0 + 1]? =
      (calculate_coords_wrap 0 2 [0] [some 5] none)[0 + 1]? :=
  C9_wrap_equiv 0 2 [0] [10] [some 5] none none 0 0 5 (by decide) (by decide) (by decide)
    (show ([0] : List Int)[0]? = some 0 by rfl)
    (show ([10] : List Int)[0]? = some ((0 : Int) + 5 * ((2 : Nat) : Int)) by decide)
    (show ([some 5] : List (Option Int))[0]? = some (some 5) by rfl)

/-! ## Behaviour of `get_index` -/

theorem get_index_of_mem (iht : IHT) (q : List Int) (i : Nat)
    (h : lookupAssoc iht.dict q = some i) : iht.get_index q = some (i, iht) := by
  simp only [IHT.get_index, h]

theorem get_index_overfull (iht : IHT) (q : List Int)
    (habs : lookupAssoc iht.dict q = none) (hfull : iht.size ≤ iht.dict.length)
    (hs : 1 ≤ iht.size) :
    iht.get_index q =
      some (base_hash q % iht.size, ⟨iht.size, iht.overfull_count + 1, iht.dict⟩) := by
  simp only [IHT.get_index, habs, safeMod, if_pos hfull]
  rw [if_neg (by omega)]

theorem get_index_insert (iht : IHT) (q : List Int)
    (habs : lookupAssoc iht.dict q = none) (hroom : iht.dict.length < iht.size) :
    iht.get_index q =
      some (iht.dict.length,
        ⟨iht.size, iht.overfull_count, iht.dict ++ [(q, iht.dict.length)]⟩) := by
  simp only [IHT.get_index, habs]
  rw [if_neg (by omega)]

theorem get_index_read_only_fst (iht : IHT) (q : List Int) :
    (iht.get_index_read_only q).1 = lookupAssoc iht.dict q := by
  rw [IHT.get_index_read_only]
  cases lookupAssoc iht.dict q <;> rfl

theorem get_index_read_only_snd (iht : IHT) (q : List Int) :
    (iht.get_index_read_only q).2 = iht := by
  rw [IHT.get_index_read_only]
  cases lookupAssoc iht.dict q <;> rfl

theorem get_index_sound (iht : IHT) (q : List Int) (hs : 1 ≤ iht.size) (hwf : WF iht) :
    ∃ i iht', iht.get_index q = some (i, iht') ∧ i < iht.size ∧ WF iht'
      ∧ iht'.size = iht.size := by
  cases hlk : lookupAssoc iht.dict q with
  | some i =>
    exact ⟨i, iht, get_index_of_mem _ _ _ hlk, hwf _ (lookupAssoc_eq_some_mem hlk), hwf, rfl⟩
  | none =>
    by_cases hfull : iht.size ≤ iht.dict.length
    · refine ⟨_, _, get_index_overfull _ _ hlk hfull hs, Nat.mod_lt _ (by omega), ?_, rfl⟩
      intro p hp
      exact hwf p hp
    · refine ⟨_, _, get_index_insert _ _ hlk (by omega), ?_, ?_, rfl⟩
      · show iht.dict.length < iht.size
        omega
      · intro p hp
        have hp' : p ∈ iht.dict ++ [(q, iht.dict.length)] := hp
        show p.2 < iht.size
        rcases List.mem_append.mp hp' with hp2 | hp2
        · exact hwf p hp2
        · rcases List.mem_singleton.mp hp2 with rfl
          show iht.dict.length < iht.size
          omega

/-! ## Behaviour of the query loops -/

theorem runQueries_cons_some (iht iht1 : IHT) (q : List Int) (qs : List (List Int)) (i : Nat)
    (h : iht.get_index q = some (i, iht1)) :
    runQueries iht (q :: qs) =
      match runQueries iht1 qs with
      | none => none
      | some (out, iht'') => some (i :: out, iht'') := by
  rw [runQueries, h]

theorem runQueries_sound : ∀ (qs : List (List Int)) (iht : IHT), 1 ≤ iht.size → WF iht →
    ∃ out iht', runQueries iht qs = some (out, iht') ∧ out.length = qs.length
      ∧ (∀ x ∈ out, x < iht.size) ∧ WF iht' ∧ iht'.size = iht.size := by
  intro qs
  induction qs with
  | nil =>
    intro iht hs hwf
    exact ⟨[], iht, rfl, rfl, by simp, hwf, rfl⟩
  | cons q rest ih =>
    intro iht hs hwf
    obtain ⟨i, iht1, hgi, hib, hwf1, hsz⟩ := get_index_sound iht q hs hwf
    obtain ⟨out, iht2, hrun, hlen, hbnd, hwf2, hsz2⟩ := ih iht1 (by omega) hwf1
    refine ⟨i :: out, iht2, ?_, by simp [hlen], ?_, hwf2, by omega⟩
    · rw [runQueries_cons_some iht iht1 q rest i hgi, hrun]
    · intro x hx
      rcases List.mem_cons.mp hx with rfl | hx
      · exact hib
      · have := hbnd x hx
        omega

theorem roLoop_spec (iht : IHT) : ∀ cs : List (List Int),
    (roLoop iht cs).2 = iht
    ∧ (roLoop iht cs).1 = cs.map fun c => (iht.get_index_read_only c).1 := by
  intro cs
  induction cs with
  | nil => exact ⟨rfl, rfl⟩
  | cons c rest ih =>
    rw [roLoop]
    constructor
    · show (roLoop (iht.get_index_read_only c).2 rest).2 = iht
      rw [get_index_read_only_snd]
      exact ih.1
    · show (iht.get_index_read_only c).1 :: (roLoop (iht.get_index_read_only c).2 rest).1 = _
      rw [get_index_read_only_snd, List.map_cons, ih.2]

theorem tilesHashLoop_sound (s : Nat) (hs : 1 ≤ s) : ∀ cs : List (List Int),
    ∃ out, tilesHashLoop s cs = some out ∧ out.length = cs.length ∧ ∀ x ∈ out, x < s := by
  intro cs
  induction cs with
  | nil => exact ⟨[], rfl, rfl, by simp⟩
  | cons c rest ih =>
    obtain ⟨out, hrun, hlen, hbnd⟩ := ih
    refine ⟨base_hash c % s :: out, ?_, by simp [hlen], ?_⟩
    · rw [tilesHashLoop, safeMod, if_neg (by omega), hrun]
    · intro x hx
      rcases List.mem_cons.mp hx with rfl | hx
      · exact Nat.mod_lt _ (by omega)
      · exact hbnd x hx

/-! ## The key-extension view of a run from a fresh table -/

theorem assocOf_length : ∀ (ks : List (List Int)) (j : Nat), (assocOf ks j).length = ks.length := by
  intro ks
  induction ks with
  | nil => intro j; rfl
  | cons k rest ih => intro j; simp [assocOf, ih]

theorem assocOf_map_fst : ∀ (ks : List (List Int)) (j : Nat), (assocOf ks j).map Prod.fst = ks := by
  intro ks
  induction ks with
  | nil => intro j; rfl
  | cons k rest ih => intro j; simp [assocOf, ih]

theorem assocOf_append : ∀ (ks t : List (List Int)) (j : Nat),
    assocOf (ks ++ t) j = assocOf ks j ++ assocOf t (j + ks.length) := by
  intro ks
  induction ks with
  | nil => intro t j; simp [assocOf]
  | cons k rest ih =>
    intro t j
    rw [List.cons_append]
    simp only [assocOf]
    rw [ih t (j + 1), List.cons_append, List.length_cons,
      show j + 1 + rest.length = j + (rest.length + 1) from by omega]

theorem lookupAssoc_assocOf_not_mem : ∀ (ks : List (List Int)) (q : List Int) (j : Nat),
    q ∉ ks → lookupAssoc (assocOf ks j) q = none := by
  intro ks
  induction ks with
  | nil => intro q j _; rfl
  | cons k rest ih =>
    intro q j h
    have hk : k ≠ q := fun hk => h (by rw [← hk]; exact List.mem_cons_self k rest)
    rw [assocOf, lookupAssoc, if_neg hk,
      ih q (j + 1) (fun hq => h (List.mem_cons_of_mem k hq))]

theorem lookupAssoc_assocOf_mem : ∀ (ks : List (List Int)) (q : List Int) (j : Nat),
    q ∈ ks → ∃ i, lookupAssoc (assocOf ks j) q = some i := by
  intro ks
  induction ks with
  | nil => intro q j h; cases h
  | cons k rest ih =>
    intro q j h
    by_cases hk : k = q
    · exact ⟨j, by rw [assocOf, lookupAssoc, if_pos hk]⟩
    · obtain ⟨i, hi⟩ := ih q (j + 1) (by rcases List.mem_cons.mp h with rfl | h; exact absurd rfl hk; exact h)
      exact ⟨i, by rw [assocOf, lookupAssoc, if_neg hk, hi]⟩

theorem runQueries_extend : ∀ (qs ks : List (List Int)) (C ov : Nat),
    1 ≤ C → ks.length ≤ C →
    ∃ out ov', runQueries ⟨C, ov, assocOf ks 0⟩ qs =
      some (out, ⟨C, ov', assocOf (extendKeys C ks qs) 0⟩) := by
  intro qs
  induction qs with
  | nil => intro ks C ov h1 h2; exact ⟨[], ov, rfl⟩
  | cons q rest ih =>
    intro ks C ov h1 h2
    by_cases hmem : q ∈ ks
    · obtain ⟨i, hi⟩ := lookupAssoc_assocOf_mem ks q 0 hmem
      obtain ⟨out, ov', hrun⟩ := ih ks C ov h1 h2
      refine ⟨i :: out, ov', ?_⟩
      rw [runQueries_cons_some _ _ _ _ _ (get_index_of_mem ⟨C, ov, assocOf ks 0⟩ q i hi),
        hrun, extendKeys, if_pos hmem]
    · have hlk : lookupAssoc (assocOf ks 0) q = none := lookupAssoc_assocOf_not_mem ks q 0 hmem
      by_cases hroom : ks.length < C
      · obtain ⟨out, ov', hrun⟩ := ih (ks ++ [q]) C ov h1 (by simp; omega)
        refine ⟨ks.length :: out, ov', ?_⟩
        have hins := get_index_insert ⟨C, ov, assocOf ks 0⟩ q hlk
          (by rw [assocOf_length]; exact hroom)
        rw [assocOf_length] at hins
        have hd : assocOf ks 0 ++ [(q, ks.length)] = assocOf (ks ++ [q]) 0 := by
          rw [assocOf_append, Nat.zero_add]
          rfl
        rw [hd] at hins
        rw [runQueries_cons_some _ _ _ _ _ hins, hrun, extendKeys, if_neg hmem, if_pos hroom]
      · obtain ⟨out, ov', hrun⟩ := ih ks C (ov + 1) h1 h2
        refine ⟨base_hash q % C :: out, ov', ?_⟩
        have hov := get_index_overfull ⟨C, ov, assocOf ks 0⟩ q hlk
          (show C ≤ (assocOf ks 0).length by rw [assocOf_length]; omega) h1
        rw [runQueries_cons_some _ _ _ _ _ hov, hrun, extendKeys, if_neg hmem, if_neg hroom]

/-! ## First-seen order -/

theorem firstSeenAux_append : ∀ (qs qs' acc : List (List Int)),
    firstSeenAux acc (qs ++ qs') = firstSeenAux (firstSeenAux acc qs) qs' := by
  intro qs
  induction qs with
  | nil => intro qs' acc; rfl
  | cons q rest ih =>
    intro qs' acc
    rw [List.cons_append, firstSeenAux, firstSeenAux, ih]

theorem firstSeenAux_extends : ∀ (qs acc : List (List Int)),
    ∃ t, firstSeenAux acc qs = acc ++ t := by
  intro qs
  induction qs with
  | nil => intro acc; exact ⟨[], by rw [firstSeenAux, List.append_nil]⟩
  | cons q rest ih =>
    intro acc
    rw [firstSeenAux]
    by_cases hmem : q ∈ acc
    · rw [if_pos hmem]
      exact ih acc
    · rw [if_neg hmem]
      obtain ⟨t, ht⟩ := ih (acc ++ [q])
      exact ⟨[q] ++ t, by rw [ht, List.append_assoc]⟩

theorem firstSeenAux_nodup : ∀ (qs acc : List (List Int)),
    acc.Nodup → (firstSeenAux acc qs).Nodup := by
  intro qs
  induction qs with
  | nil => intro acc h; exact h
  | cons q rest ih =>
    intro acc h
    rw [firstSeenAux]
    by_cases hmem : q ∈ acc
    · rw [if_pos hmem]
      exact ih acc h
    · rw [if_neg hmem]
      refine ih (acc ++ [q]) (List.nodup_append.mpr ⟨h, List.nodup_singleton q, ?_⟩)
      intro a ha hb
      rw [List.mem_singleton] at hb
      subst hb
      exact hmem ha

theorem extendKeys_take (C : Nat) : ∀ (qs acc : List (List Int)),
    extendKeys C (acc.take C) qs = (firstSeenAux acc qs).take C := by
  intro qs
  induction qs with
  | nil => intro acc; rfl
  | cons q rest ih =>
    intro acc
    rw [extendKeys, firstSeenAux]
    by_cases hmem : q ∈ acc.take C
    · rw [if_pos hmem, if_pos (List.mem_of_mem_take hmem)]
      exact ih acc
    · rw [if_neg hmem]
      by_cases hroom : (acc.take C).length < C
      · have hlen : acc.length < C := by
          rw [List.length_take] at hroom
          omega
        have hacc : acc.take C = acc := List.take_of_length_le (by omega)
        have hmem2 : q ∉ acc := by
          rw [← hacc]
          exact hmem
        rw [if_pos hroom, if_neg hmem2, hacc]
        have hq : (acc ++ [q]).take C = acc ++ [q] := List.take_of_length_le (by simp; omega)
        have hgoal := ih (acc ++ [q])
        rw [hq] at hgoal
        exact hgoal
      · rw [if_neg hroom]
        by_cases hmemacc : q ∈ acc
        · rw [if_pos hmemacc]
          exact ih acc
        · rw [if_neg hmemacc]
          have hCle : C ≤ acc.length := by
            rw [List.length_take] at hroom
            omega
          have h2 : (acc ++ [q]).take C = acc.take C := List.take_append_of_le_length hCle
          have hgoal := ih (acc ++ [q])
          rw [h2] at hgoal
          exact hgoal

/-! ## Claim C5 -/

/-- C5: from a fresh bounded table of capacity `C ≥ 1`, any sequence of
`get_index` lookups succeeds and leaves the dictionary equal to the first
`C` distinct coordinate vectors in first-seen order paired with the dense
indices `0, 1, ...` (`assocOf ... 0`): the k-th distinct vector holds index
k-1.  The dictionary never exceeds `C` entries; continuing with any further
queries only appends entries (`++ ext`), so an assigned vector's index
never changes; and any stored pair `(v, i)` is returned unchanged by a
later lookup of `v`. -/
theorem C5_density (C : Nat) (qs qs' : List (List Int)) (hC : 1 ≤ C) :
    ∃ out ov out' ov' ext,
      runQueries (IHT.new C) qs = some (out, ⟨C, ov, assocOf ((firstSeen qs).take C) 0⟩)
      ∧ ((firstSeen qs).take C).length ≤ C
      ∧ runQueries (IHT.new C) (qs ++ qs') =
          some (out', ⟨C, ov', assocOf ((firstSeen qs).take C) 0 ++ ext⟩)
      ∧ (∀ v i, (v, i) ∈ assocOf ((firstSeen qs).take C) 0 →
          (⟨C, ov, assocOf ((firstSeen qs).take C) 0⟩ : IHT).get_index v =
            some (i, ⟨C, ov, assocOf ((firstSeen qs).take C) 0⟩)) := by
  have hnil : ∀ zs : List (List Int), extendKeys C [] zs = (firstSeen zs).take C := by
    intro zs
    have h := extendKeys_take C zs []
    rw [List.take_nil] at h
    exact h
  obtain ⟨out, ov, h1⟩ := runQueries_extend qs [] C 0 hC (by simp)
  rw [hnil qs] at h1
  obtain ⟨out', ov', h2⟩ := runQueries_extend (qs ++ qs') [] C 0 hC (by simp)
  rw [hnil (qs ++ qs')] at h2
  obtain ⟨t, ht⟩ := firstSeenAux_extends qs' (firstSeen qs)
  have hfs : firstSeen (qs ++ qs') = firstSeen qs ++ t := by
    rw [firstSeen, firstSeenAux_append]
    exact ht
  have htake : (firstSeen (qs ++ qs')).take C =
      (firstSeen qs).take C ++ t.take (C - (firstSeen qs).length) := by
    rw [hfs, List.take_append_eq_append_take]
  rw [htake, assocOf_append] at h2
  refine ⟨out, ov, out', ov', _, h1, ?_, h2, ?_⟩
  · rw [List.length_take]
    omega
  · intro v i hm
    apply get_index_of_mem
    apply lookupAssoc_of_mem_nodup ?_ hm
    rw [assocOf_map_fst]
    exact List.Nodup.sublist (List.take_sublist _ _) (firstSeenAux_nodup qs [] List.nodup_nil)

theorem C5_density_witness :
    ∃ out ov out' ov' ext,
      runQueries (IHT.new 2) [[5], [6], [5], [7]] =
        some (out, ⟨2, ov, assocOf ((firstSeen [[5], [6], [5], [7]]).take 2) 0⟩)
      ∧ ((firstSeen [[5], [6], [5], [7]]).take 2).length ≤ 2
      ∧ runQueries (IHT.new 2) ([[5], [6], [5], [7]] ++ [[8]]) =
          some (out', ⟨2, ov', assocOf ((firstSeen [[5], [6], [5], [7]]).take 2) 0 ++ ext⟩)
      ∧ (∀ v i, (v, i) ∈ assocOf ((firstSeen [[5], [6], [5], [7]]).take 2) 0 →
          (⟨2, ov, assocOf ((firstSeen [[5], [6], [5], [7]]).take 2) 0⟩ : IHT).get_index v =
            some (i, ⟨2, ov, assocOf ((firstSeen [[5], [6], [5], [7]]).take 2) 0⟩)) :=
  C5_density 2 [[5], [6], [5], [7]] [[8]] (by decide)

/-! ## Claim C4 -/

/-- C4 counterexample: the claim asserts that every capacity (including 0)
and every size (including 0) give defined, panic-free calls.  With
capacity 0 the very first `tiles` call reaches the overfull path and
computes `base_hash % 0` — Rust panics (modelled as `none`); the stateless
`tiles` with `size = 0` likewise panics on its first hash reduction. -/
theorem C4_counterexample :
    (IHT.new 0).tiles 1 [0] none = none ∧ tiles 0 1 [0] none = none := by
  constructor
  · rfl
  · rfl

/-- C4 (amended): no post-construction operation fails PROVIDED the
capacity (bounded table) resp. `size` (stateless functions) is at least 1:
every `get_index` sequence from a fresh table succeeds, and the stateless
`tiles` / `tiles_wrap` always return a value.  (The read-only lookups are
total unconditionally.)  With capacity or size 0 the remainder `% 0` on
the hash path is reached and panics, per the counterexample. -/
theorem C4_no_failure (C s n : Nat) (qs : List (List Int)) (q : List Int)
    (ww : List (Option Int)) (ints : Option (List Int))
    (hC : 1 ≤ C) (hs : 1 ≤ s) :
    (runQueries (IHT.new C) qs).isSome
    ∧ (tiles s n q ints).isSome
    ∧ (tiles_wrap s n q ww ints).isSome := by
  refine ⟨?_, ?_, ?_⟩
  · obtain ⟨out, iht', h, -, -, -, -⟩ :=
      runQueries_sound qs (IHT.new C) hC (fun p hp => absurd hp (List.not_mem_nil p))
    rw [h]
    rfl
  · obtain ⟨out, h, -, -⟩ := tilesHashLoop_sound s hs _
    rw [tiles, h]
    rfl
  · obtain ⟨out, h, -, -⟩ := tilesHashLoop_sound s hs _
    rw [tiles_wrap, h]
    rfl

theorem C4_no_failure_witness :
    (runQueries (IHT.new 1) [[0]]).isSome
    ∧ (tiles 1 1 [0] none).isSome
    ∧ (tiles_wrap 1 1 [0] [some 2] none).isSome :=
  C4_no_failure 1 1 1 [[0]] [0] [some 2] none (by decide) (by decide)

/-! ## Claim C6 -/

/-- C6: with `num_tilings = n ≥ 1` and positive size `s`, the bounded
`tiles` / `tiles_wrap` methods succeed and return exactly `n` indices, all
below `s`; the two read-only variants return exactly `n` options whose
`some` contents are below `s`; and the stateless `tiles` / `tiles_wrap`
likewise return exactly `n` indices below `s`.  `WF` is the invariant
(holding for a fresh table and preserved by every operation) that every
stored index is below the capacity. -/
theorem C6_range (iht : IHT) (s n : Nat) (q : List Int) (ww : List (Option Int))
    (ints : Option (List Int))
    (hsz : iht.size = s) (hs : 1 ≤ s) (hn : 1 ≤ n) (hwf : WF iht) :
    (∃ out iht', iht.tiles n q ints = some (out, iht')
      ∧ out.length = n ∧ ∀ x ∈ out, x < s)
    ∧ (∃ out iht', iht.tiles_wrap n q ww ints = some (out, iht')
      ∧ out.length = n ∧ ∀ x ∈ out, x < s)
    ∧ ((iht.tiles_read_only n q ints).1.length = n
      ∧ ∀ o ∈ (iht.tiles_read_only n q ints).1, ∀ x, o = some x → x < s)
    ∧ ((iht.tiles_wrap_read_only n q ww ints).1.length = n
      ∧ ∀ o ∈ (iht.tiles_wrap_read_only n q ww ints).1, ∀ x, o = some x → x < s)
    ∧ (∃ out, tiles s n q ints = some out ∧ out.length = n ∧ ∀ x ∈ out, x < s)
    ∧ (∃ out, tiles_wrap s n q ww ints = some out ∧ out.length = n ∧ ∀ x ∈ out, x < s) := by
  subst hsz
  have hfresh : ∀ cs : List (List Int),
      ∃ out iht', runQueries iht cs = some (out, iht')
        ∧ out.length = cs.length ∧ ∀ x ∈ out, x < iht.size :=
    fun cs => by
      obtain ⟨out, iht', h, hl, hb, -, -⟩ := runQueries_sound cs iht hs hwf
      exact ⟨out, iht', h, hl, hb⟩
  have hro : ∀ cs : List (List Int),
      (roLoop iht cs).1.length = cs.length
      ∧ ∀ o ∈ (roLoop iht cs).1, ∀ x, o = some x → x < iht.size := by
    intro cs
    rw [(roLoop_spec iht cs).2]
    refine ⟨by simp, ?_⟩
    intro o ho x hx
    obtain ⟨c, -, rfl⟩ := List.mem_map.mp ho
    rw [get_index_read_only_fst] at hx
    exact hwf _ (lookupAssoc_eq_some_mem hx)
  refine ⟨?_, ?_, ?_, ?_, ?_, ?_⟩
  · obtain ⟨out, iht', h, hl, hb⟩ := hfresh _
    exact ⟨out, iht', h, by simpa using hl, hb⟩
  · obtain ⟨out, iht', h, hl, hb⟩ := hfresh _
    exact ⟨out, iht', h, by simpa using hl, hb⟩
  · obtain ⟨hl, hb⟩ := hro _
    exact ⟨by simpa using hl, hb⟩
  · obtain ⟨hl, hb⟩ := hro _
    exact ⟨by simpa using hl, hb⟩
  · obtain ⟨out, h, hl, hb⟩ := tilesHashLoop_sound iht.size hs _
    exact ⟨out, h, by simpa using hl, hb⟩
  · obtain ⟨out, h, hl, hb⟩ := tilesHashLoop_sound iht.size hs _
    exact ⟨out, h, by simpa using hl, hb⟩

theorem C6_range_witness :
    (∃ out iht', (IHT.new 3).tiles 2 [0] none = some (out, iht')
      ∧ out.length = 2 ∧ ∀ x ∈ out, x < 3)
    ∧ (∃ out iht', (IHT.new 3).tiles_wrap 2 [0] [some 2] none = some (out, iht')
      ∧ out.length = 2 ∧ ∀ x ∈ out, x < 3)
    ∧ (((IHT.new 3).tiles_read_only 2 [0] none).1.length = 2
      ∧ ∀ o ∈ ((IHT.new 3).tiles_read_only 2 [0] none).1, ∀ x, o = some x → x < 3)
    ∧ (((IHT.new 3).tiles_wrap_read_only 2 [0] [some 2] none).1.length = 2
      ∧ ∀ o ∈ ((IHT.new 3).tiles_wrap_read_only 2 [0] [some 2] none).1,
          ∀ x, o = some x → x < 3)
    ∧ (∃ out, tiles 3 2 [0] none = some out ∧ out.length = 2 ∧ ∀ x ∈ out, x < 3)
    ∧ (∃ out, tiles_wrap 3 2 [0] [some 2] none = some out
      ∧ out.length = 2 ∧ ∀ x ∈ out, x < 3) :=
  C6_range (IHT.new 3) 3 2 [0] [some 2] none rfl (by decide) (by decide)
    (fun p hp => absurd hp (List.not_mem_nil p))

/-! ## Claim C7 -/

/-- C7: on a full table (`count ≥ capacity ≥ 1`) an absent vector is NOT
inserted — the dictionary is returned unchanged — `overfull_count` grows by
exactly 1, and the returned value is `base_hash v % capacity`, which lies
in `[0, capacity)` and is a pure function of the vector's contents and the
fixed capacity: any other table state of the same capacity in which `v` is
absent-and-overfull returns the same collided index. -/
theorem C7_overfull_hash (iht : IHT) (v : List Int)
    (habs : lookupAssoc iht.dict v = none)
    (hfull : iht.size ≤ iht.dict.length) (hs : 1 ≤ iht.size) :
    iht.get_index v = some (base_hash v % iht.size, ⟨iht.size, iht.overfull_count + 1, iht.dict⟩)
    ∧ base_hash v % iht.size < iht.size
    ∧ (∀ iht2 : IHT, iht2.size = iht.size → lookupAssoc iht2.dict v = none →
        iht2.size ≤ iht2.dict.length →
        (iht2.get_index v).map Prod.fst = some (base_hash v % iht.size)) := by
  refine ⟨get_index_overfull iht v habs hfull hs, Nat.mod_lt _ (by omega), ?_⟩
  intro iht2 h2sz h2abs h2full
  rw [get_index_overfull iht2 v h2abs h2full (by omega), Option.map_some', h2sz]

set_option maxRecDepth 8000 in
theorem C7_overfull_hash_witness :
    (⟨1, 0, [([0], 0)]⟩ : IHT).get_index [1] =
      some (base_hash [1] % 1, ⟨1, 1, [([0], 0)]⟩)
    ∧ base_hash [1] % 1 < 1 := by
  have h := C7_overfull_hash ⟨1, 0, [([0], 0)]⟩ [1] (by decide) (by decide) (by decide)
  exact ⟨h.1, h.2.1⟩

/-! ## Claim C8 -/

/-- C8: the read-only lookup returns the stored index exactly when the
vector is present (and `none` exactly when absent, full table or not),
returns the table state unchanged — so `count`, `overfull_count` and the
mapping are untouched — and a subsequent `get_index` on that returned
state behaves exactly as if the read-only call never happened. -/
theorem C8_read_only (iht : IHT) (v : List Int) (hnd : (iht.dict.map Prod.fst).Nodup) :
    (∀ i, (v, i) ∈ iht.dict ↔ (iht.get_index_read_only v).1 = some i)
    ∧ ((iht.get_index_read_only v).1 = none ↔ ∀ i, (v, i) ∉ iht.dict)
    ∧ (iht.get_index_read_only v).2 = iht
    ∧ ((iht.get_index_read_only v).2).get_index v = iht.get_index v := by
  refine ⟨fun i => ⟨fun hm => ?_, fun he => ?_⟩, ?_, get_index_read_only_snd iht v, ?_⟩
  · rw [get_index_read_only_fst]
    exact lookupAssoc_of_mem_nodup hnd hm
  · rw [get_index_read_only_fst] at he
    exact lookupAssoc_eq_some_mem he
  · rw [get_index_read_only_fst]
    exact lookupAssoc_eq_none_iff
  · rw [get_index_read_only_snd]

theorem C8_read_only_witness :
    ((⟨2, 0, [([3], 0)]⟩ : IHT).get_index_read_only [3]).1 = some 0
    ∧ ((⟨2, 0, [([3], 0)]⟩ : IHT).get_index_read_only [3]).2 = ⟨2, 0, [([3], 0)]⟩ := by
  have h := C8_read_only ⟨2, 0, [([3], 0)]⟩ [3] (by decide)
  exact ⟨(h.1 0).mp (by decide), h.2.2.1⟩

/-! ## Claim C10 -/

theorem zip_eq_zip_take {α β : Type _} : ∀ (l₁ : List α) (l₂ : List β),
    l₁.zip l₂ = (l₁.take l₂.length).zip l₂ := by
  intro l₁
  induction l₁ with
  | nil => intro l₂; rw [List.take_nil]
  | cons a l ih =>
    intro l₂
    cases l₂ with
    | nil => rfl
    | cons b l₂ =>
      rw [List.zip_cons_cons, List.length_cons, List.take_succ_cons, List.zip_cons_cons,
        ih l₂]

/-- C10: when fewer wrap widths than floats are supplied, the zipped loop
silently drops the trailing float dimensions: every coordinate vector has
length `1 + min |floats| |wrap_widths| + |ints|`, no panic occurs (for
positive `size`), and two quantized inputs agreeing on the first
`|wrap_widths|` dimensions give identical results through the stateless
`tiles_wrap`, the bounded `tiles_wrap` and `tiles_wrap_read_only`. -/
theorem C10_ignored_dims (s n t : Nat) (q₁ q₂ : List Int) (ww : List (Option Int))
    (ints : Option (List Int)) (iht : IHT)
    (hlt₁ : ww.length < q₁.length) (hlt₂ : ww.length < q₂.length)
    (htake : q₁.take ww.length = q₂.take ww.length) (hs : 1 ≤ s) :
    (calculate_coords_wrap t n q₁ ww ints).length
        = 1 + min q₁.length ww.length + (ints.getD []).length
    ∧ tiles_wrap s n q₁ ww ints = tiles_wrap s n q₂ ww ints
    ∧ (tiles_wrap s n q₁ ww ints).isSome
    ∧ iht.tiles_wrap n q₁ ww ints = iht.tiles_wrap n q₂ ww ints
    ∧ iht.tiles_wrap_read_only n q₁ ww ints = iht.tiles_wrap_read_only n q₂ ww ints := by
  have hcoords : ∀ t' n' : Nat,
      calculate_coords_wrap t' n' q₁ ww ints = calculate_coords_wrap t' n' q₂ ww ints := by
    intro t' n'
    rw [calculate_coords_wrap, calculate_coords_wrap, zip_eq_zip_take q₁ ww,
      zip_eq_zip_take q₂ ww, htake]
  have hmaps : ∀ n' : Nat,
      ((List.range n').map fun t' => calculate_coords_wrap t' n' q₁ ww ints)
        = (List.range n').map fun t' => calculate_coords_wrap t' n' q₂ ww ints :=
    fun n' => List.map_congr_left fun a _ => hcoords a n'
  refine ⟨?_, ?_, ?_, ?_, ?_⟩
  · rw [calculate_coords_wrap, List.length_append, List.length_cons, coordsWrapLoop_length,
      List.length_zip]
    omega
  · rw [tiles_wrap, tiles_wrap, hmaps n]
  · rw [tiles_wrap]
    obtain ⟨out, h, -, -⟩ := tilesHashLoop_sound s hs _
    rw [h]
    rfl
  · rw [IHT.tiles_wrap, IHT.tiles_wrap, hmaps n]
  · rw [IHT.tiles_wrap_read_only, IHT.tiles_wrap_read_only, hmaps n]

theorem C10_ignored_dims_witness :
    (calculate_coords_wrap 0 1 [0, 5] [none] none).length
        = 1 + min ([0, 5] : List Int).length ([none] : List (Option Int)).length
          + ((none : Option (List Int)).getD []).length
    ∧ tiles_wrap 4 1 [0, 5] [none] none = tiles_wrap 4 1 [0, 9] [none] none
    ∧ (tiles_wrap 4 1 [0, 5] [none] none).isSome
    ∧ (IHT.new 4).tiles_wrap 1 [0, 5] [none] none = (IHT.new 4).tiles_wrap 1 [0, 9] [none] none
    ∧ (IHT.new 4).tiles_wrap_read_only 1 [0, 5] [none] none
        = (IHT.new 4).tiles_wrap_read_only 1 [0, 9] [none] none :=
  C10_ignored_dims 4 1 0 [0, 5] [0, 9] [none] none (IHT.new 4) (by decide) (by decide)
    rfl (by decide)
